import Mathlib

set_option autoImplicit false
set_option linter.unusedVariables false

namespace Tweep

/-!
Shallow embedding of the tweep Twee parser core: the passage-header tokenizer
(src/passages/header.rs), the story assembler (src/story/story_passages.rs),
the diagnostics types (src/issues/error_type.rs, src/issues/warning_type.rs,
src/passage/twine_link.rs) and the span model (src/context/inner_context.rs).

Strings are embedded as `List Char`.  Every character the tokenizer inspects
(the sigil `::`, brackets, braces, backslash, ASCII whitespace) is a single
byte in UTF-8, so the byte indices used by the Rust code coincide with
character indices here.  The crate is compiled without the optional
issue-context feature, so the `#[cfg(feature = "issue-context")]` branches of
the source are not part of the embedding.
-/

/-! ### String helpers (Rust `str` operations used by the sources) -/

def bs : Char := '\\'

def isWs (c : Char) : Bool := c.isWhitespace

/-- Rust `str::trim_start`. -/
def trimStart (s : List Char) : List Char := s.dropWhile isWs

/-- Rust `str::trim_end`. -/
def trimEnd (s : List Char) : List Char := (s.reverse.dropWhile isWs).reverse

/-- Rust `str::trim`. -/
def trim (s : List Char) : List Char := trimEnd (trimStart s)

def splitWsAux : List Char → List Char → List (List Char)
  | [], acc => if acc = [] then [] else [acc.reverse]
  | c :: rest, acc =>
    if isWs c then
      if acc = [] then splitWsAux rest [] else acc.reverse :: splitWsAux rest []
    else
      splitWsAux rest (c :: acc)

/-- Rust `str::split_whitespace`: the maximal runs of non-whitespace
characters, in order; empty runs never appear. -/
def splitWs (s : List Char) : List (List Char) := splitWsAux s []

/-- Rust `str::match_indices`: indices of the pattern's occurrences, ascending.
Rust yields the leftmost non-overlapping matches; the patterns used by the
sources are a single non-backslash character or a backslash followed by one,
and occurrences of such patterns can never overlap, so the non-overlapping
matches are exactly all occurrences. -/
def matchIndices (input pat : List Char) : List Nat :=
  (List.range input.length).filter (fun i => pat.isPrefixOf (input.drop i))

/-- Rust `str::rfind` for a non-empty string pattern: the start of the last
occurrence. -/
def rfindSub (input pat : List Char) : Option Nat := (matchIndices input pat).getLast?

/-- Rust slicing `&s[lo..hi]`.  Rust panics when `lo > hi` or `hi > s.len()`;
every call site in the sources is in bounds, and the embedding clamps. -/
def extract (s : List Char) (lo hi : Nat) : List Char := (s.drop lo).take (hi - lo)

/-! ### Positions and diagnostics

The `Position` type and the `Positional`, `Output` and `ErrorList` plumbing
live in repository files that are not under src/ (position.rs, output.rs,
issues/error.rs, issues/error_list.rs, issues/warning.rs); their data content
is modelled from the spec: a 1-indexed (row, column) coordinate optionally
tagged with a file name, coordinate-shifting by row/column offsets, an ordered
mergeable error list, and an `Output` pairing a value with warnings. -/

structure Position where
  row : Nat
  column : Nat
  file : Option (List Char)
deriving DecidableEq, Repr

/-- Modelled from the spec: `Position::default()`, a fresh coordinate with no
file name.  Columns are 1-indexed; the default row is 0 so that the
assembler's 0-based chunk-start row offsets produce the rows the repository's
own tests expect (story_passages.rs test `warning_offsets`: the passage
starting at line index 6 yields a warning `.with_row(6)`). -/
def Position.origin : Position := ⟨0, 1, none⟩

def Position.withColumn (p : Position) (c : Nat) : Position := ⟨p.row, c, p.file⟩

def Position.withRow (p : Position) (r : Nat) : Position := ⟨r, p.column, p.file⟩

def Position.offsetColumn (p : Position) (d : Nat) : Position := ⟨p.row, p.column + d, p.file⟩

def Position.offsetRow (p : Position) (d : Nat) : Position := ⟨p.row + d, p.column, p.file⟩

/-- src/issues/error_type.rs: `ErrorType`. -/
inductive ErrorType where
  | emptyName
  | leadingWhitespace
  | metadataBeforeTags
  | missingSigil
  | unescapedOpenSquare
  | unescapedOpenCurly
  | unescapedCloseSquare
  | unescapedCloseCurly
  | unclosedTagBlock
  | unclosedMetadataBlock
  | badInputPath (path errStr : List Char)
deriving DecidableEq, Repr

/-- src/issues/warning_type.rs: `WarningType`. -/
inductive WarningType where
  | escapedOpenSquare
  | escapedCloseSquare
  | escapedOpenCurly
  | escapedCloseCurly
  | jsonError (msg : List Char)
  | duplicateStoryTitle
  | duplicateStoryData
  | missingStoryTitle
  | missingStoryData
  | unclosedLink
  | whitespaceInLink
  | deadLink (target : List Char)
deriving DecidableEq, Repr

structure Error where
  error_type : ErrorType
  position : Position
deriving DecidableEq, Repr

def Error.new (t : ErrorType) : Error := ⟨t, Position.origin⟩

def Error.with_column (e : Error) (c : Nat) : Error := ⟨e.error_type, e.position.withColumn c⟩

def Error.with_offset_row (e : Error) (d : Nat) : Error := ⟨e.error_type, e.position.offsetRow d⟩

structure Warning where
  warning_type : WarningType
  position : Position
  referent : Option Position
deriving DecidableEq, Repr

def Warning.new (t : WarningType) : Warning := ⟨t, Position.origin, none⟩

def Warning.with_column (w : Warning) (c : Nat) : Warning :=
  ⟨w.warning_type, w.position.withColumn c, w.referent⟩

def Warning.with_row (w : Warning) (r : Nat) : Warning :=
  ⟨w.warning_type, w.position.withRow r, w.referent⟩

def Warning.with_offset_column (w : Warning) (d : Nat) : Warning :=
  ⟨w.warning_type, w.position.offsetColumn d, w.referent⟩

def Warning.with_offset_row (w : Warning) (d : Nat) : Warning :=
  ⟨w.warning_type, w.position.offsetRow d, w.referent⟩

def Warning.set_referent (w : Warning) (p : Position) : Warning :=
  ⟨w.warning_type, w.position, some p⟩

structure ErrorList where
  errors : List Error
deriving DecidableEq, Repr

/-- Modelled from the spec: `ErrorList::merge` (issues/error_list.rs is not
under src/); "merge(a,b) concatenates preserving original order", with an `Ok`
side contributing nothing. -/
def ErrorList.merge {α β : Type} :
    Except ErrorList α → Except ErrorList β → Except ErrorList Unit
  | .error a, .error b => .error ⟨a.errors ++ b.errors⟩
  | .error a, .ok _ => .error a
  | .ok _, .error b => .error b
  | .ok _, .ok _ => .ok ()

/-- Modelled from the spec: `Output<T>` (output.rs is not under src/) pairs a
fallible result with an accumulated warning sequence. -/
structure Output (α : Type) where
  output : α
  warnings : List Warning
deriving DecidableEq, Repr

def Output.new {α : Type} (a : α) : Output α := ⟨a, []⟩

def Output.with_warnings {α : Type} (o : Output α) (w : List Warning) : Output α :=
  ⟨o.output, w⟩

/-! ### Passage headers (src/passages/header.rs)

The embedded metadata value language is an external collaborator
(serde_json); the embedding is parameterised by an abstract JSON-object
parser.  A success is the parsed object as ordered key/value pairs (values
abstracted to their text); a failure carries the error text and the
1-indexed column reported by the parser. -/

abbrev Metadata := List (List Char × List Char)

abbrev JsonExt := List Char → Except (List Char × Nat) Metadata

/-- `serde_json::Map::insert`: replaces the value of an existing key in place,
otherwise adds the pair. -/
def metaInsert : Metadata → List Char → List Char → Metadata
  | [], k, v => [(k, v)]
  | kv :: rest, k, v => if kv.1 = k then (k, v) :: rest else kv :: metaInsert rest k v

def metaLookup : Metadata → List Char → Option (List Char)
  | [], _ => none
  | kv :: rest, k => if kv.1 = k then some kv.2 else metaLookup rest k

/-- The seeded defaults of header.rs line 163:
`json!({ "position": "10,10", "size":"100,100" })`. -/
def defaultMetadata : Metadata :=
  [("position".toList, "10,10".toList), ("size".toList, "100,100".toList)]

/-- header.rs `parse_metadata`: delegate to the external JSON parser; on
failure build a JsonError warning at the parser's reported column. -/
def parse_metadata (j : JsonExt) (meta_str : List Char) : Except Warning Metadata :=
  match j meta_str with
  | .ok m => .ok m
  | .error (msg, col) => .error ((Warning.new (.jsonError msg)).with_column col)

/-- header.rs `find_last_unescaped`: the start of the last occurrence of `s`,
unless that last occurrence is directly preceded by a backslash (in which case
the last occurrence of `\s` starts one position before it), in which case
`none` — even when an earlier unescaped occurrence exists. -/
def find_last_unescaped (input s : List Char) : Option Nat :=
  (rfindSub input s).bind (fun pos =>
    let escaped_pos := (rfindSub input (bs :: s)).getD input.length
    if pos ≠ escaped_pos + 1 then some pos else none)

/-- header.rs `find_all_unescaped`: all occurrences of `s` except those
directly preceded by a backslash. -/
def find_all_unescaped (input s : List Char) : List Nat :=
  let escaped := (matchIndices input (bs :: s)).map (· + 1)
  (matchIndices input s).filter (fun i => ¬ escaped.contains i)

/-- header.rs `guess_metadata_range`: the heuristic metadata byte range, as a
`(start, stop)` pair with `stop` exclusive. -/
def guess_metadata_range (input : List Char) : Option (Nat × Nat) :=
  let opens := find_all_unescaped input ['\x7b']
  let closes := find_all_unescaped input ['\x7d']
  if opens.isEmpty then
    none
  else if closes.isEmpty then
    some ((opens.getLast?).getD 0, input.length)
  else if closes.length < opens.length then
    let diff := opens.length - closes.length
    some (opens.getD diff 0, (closes.getLast?).getD 0 + 1)
  else
    some ((opens.headD 0), (closes.getLast?).getD 0 + 1)

/-- header.rs `check_name`: unescaped occurrences of the special character are
fatal (error at the first occurrence's column); otherwise the escaped
occurrence indices are returned so warnings can be generated. -/
def check_name (input : List Char) (unescaped_str : List Char) (e : ErrorType) :
    Except Error (List Nat) :=
  let escaped := matchIndices input (bs :: unescaped_str)
  let unescaped := (matchIndices input unescaped_str).filter
    (fun i => i = 0 ∨ ¬ escaped.contains (i - 1))
  if unescaped.isEmpty then
    .ok escaped
  else
    .error ((Error.new e).with_column ((unescaped.headD 0) + 1))

/-- Recursion worker for `replaceEmpty`.  The fuel argument is a structural
termination device only: every step consumes at least one input character, so
fuel equal to the input length never runs out. -/
def replaceEmptyAux (pat : List Char) : Nat → List Char → List Char
  | _, [] => []
  | 0, rest => rest
  | fuel + 1, c :: rest =>
    if pat ≠ [] ∧ pat.isPrefixOf (c :: rest) then
      replaceEmptyAux pat fuel ((c :: rest).drop pat.length)
    else
      c :: replaceEmptyAux pat fuel rest

/-- Rust `str::replace(pat, "")`: drop every occurrence of the (non-empty)
pattern, scanning left to right. -/
def replaceEmpty (input pat : List Char) : List Char :=
  replaceEmptyAux pat input.length input

structure PassageHeader where
  name : List Char
  tags : List (List Char)
  metadata : Metadata
  position : Position
deriving DecidableEq, Repr

/-- header.rs lines 127-157: the sigil check. -/
def sigilErrs (input : List Char) : List Error :=
  if ¬ (":: ".toList.take 2).isPrefixOf input then
    [(Error.new
        (if (":: ".toList.take 2).isPrefixOf (trimStart input) then
          ErrorType.leadingWhitespace
        else
          ErrorType.missingSigil)).with_column 1]
  else
    []

/-- header.rs line 171: after the metadata scan, `name_end_pos` is the
metadata start when a metadata range was guessed, the line length otherwise. -/
def nameEndAfterMeta (input : List Char) : Nat :=
  match guess_metadata_range input with
  | some r => r.1
  | none => input.length

/-- header.rs lines 174-184: a `[` after the metadata region is fatal. -/
def metaErrs (input : List Char) : List Error :=
  match guess_metadata_range input with
  | some r =>
    if (find_last_unescaped (input.drop r.2) ['[']).isSome then
      [(Error.new ErrorType.metadataBeforeTags).with_column (r.1 + 1)]
    else
      []
  | none => []

/-- header.rs lines 186-195: metadata parsing never fails the header; a JSON
failure keeps the defaults and downgrades to a warning whose column is offset
by the metadata start. -/
def metaOutcome (j : JsonExt) (input : List Char) : List Warning × Metadata :=
  match guess_metadata_range input with
  | some r =>
    match parse_metadata j (extract input r.1 r.2) with
    | .ok m => ([], m.foldl (fun acc kv => metaInsert acc kv.1 kv.2) defaultMetadata)
    | .error w => ([w.with_offset_column r.1], defaultMetadata)
  | none => ([], defaultMetadata)

/-- header.rs lines 197-221: the tag block scan, producing the tags, the
possible UnclosedTagBlock error, and the updated `name_end_pos`. -/
def tagStage (input : List Char) (nep : Nat) :
    List (List Char) × List Error × Nat :=
  match find_last_unescaped (input.take nep) ['['] with
  | none => ([], [], nep)
  | some pos =>
    match find_last_unescaped (extract input (pos + 1) nep) [']'] with
    | some p =>
      (splitWs (trim (extract input (pos + 1) (pos + 1 + p))), [], min nep pos)
    | none =>
      ([], [(Error.new ErrorType.unclosedTagBlock).with_column (pos + 1)], min nep pos)

/-- The character/error/warning triples of header.rs lines 225-246, in source
order. -/
def specialTriples : List (List Char × ErrorType × WarningType) :=
  [(['\x7b'], ErrorType.unescapedOpenCurly, WarningType.escapedOpenCurly),
   (['\x7d'], ErrorType.unescapedCloseCurly, WarningType.escapedCloseCurly),
   (['['], ErrorType.unescapedOpenSquare, WarningType.escapedOpenSquare),
   ([']'], ErrorType.unescapedCloseSquare, WarningType.escapedCloseSquare)]

/-- header.rs lines 225-269: per-class name validation, errors and escaped
warnings accumulated in class order. -/
def nameSpecials (input : List Char) (nep : Nat) : List Error × List Warning :=
  specialTriples.foldl
    (fun acc t =>
      match check_name (input.take nep) t.1 t.2.1 with
      | .error e => (acc.1 ++ [e], acc.2)
      | .ok idxs =>
        (acc.1, acc.2 ++ idxs.map (fun i => (Warning.new t.2.2).with_column (i + 1))))
    ([], [])

/-- header.rs lines 271-275: the name text. -/
def rawName (input : List Char) (nep : Nat) : List Char :=
  if 2 < nep then replaceEmpty (trim (extract input 2 nep)) [bs] else []

/-- The final `name_end_pos` of header.rs (after the metadata and tag scans
have both capped it). -/
def nameBoundary (input : List Char) : Nat :=
  (tagStage input (nameEndAfterMeta input)).2.2

/-- The error accumulator of `PassageHeader::parse`, in source push order:
sigil errors (lines 127-157), MetadataBeforeTags (175-184), UnclosedTagBlock
(209-218), the per-class name errors (225-269), then EmptyName (276-286).
Note it does not depend on the external JSON parser: a metadata parse failure
only ever produces a warning. -/
def headerErrors (input : List Char) : List Error :=
  sigilErrs input ++ metaErrs input ++
    (tagStage input (nameEndAfterMeta input)).2.1 ++
    (nameSpecials input (nameBoundary input)).1 ++
    (if rawName input (nameBoundary input) = [] then
      [(Error.new ErrorType.emptyName).with_column 3]
    else [])

/-- The warning accumulator of `PassageHeader::parse`, in source push order:
the JSON warning (line 193) if any, then the escaped-character warnings
(lines 256-267). -/
def headerWarnings (j : JsonExt) (input : List Char) : List Warning :=
  (metaOutcome j input).1 ++ (nameSpecials input (nameBoundary input)).2

/-- header.rs `PassageHeader::parse` (lines 123-299), assembled from the
stages above.  If the accumulated error list is non-empty the errors are
returned and the warnings dropped (`Output::new(Err(errors))`, line 297);
otherwise the header is assembled with the accumulated warnings. -/
def PassageHeader.parse (j : JsonExt) (input : List Char) :
    Output (Except ErrorList PassageHeader) :=
  if headerErrors input = [] then
    (Output.new (.ok ⟨rawName input (nameBoundary input),
      (tagStage input (nameEndAfterMeta input)).1, (metaOutcome j input).2,
      Position.origin⟩)).with_warnings (headerWarnings j input)
  else
    Output.new (.error ⟨headerErrors input⟩)

/-! ### Passages and the story assembler (src/story/story_passages.rs)

`Passage`, `PassageContent` and `TwineContent` live in passage.rs, which is
not under src/; their shapes are modelled from the spec's data model: a
passage is a header plus a content variant from the closed taxonomy
Normal/StoryTitle/StoryData/Script/Stylesheet, where a Normal body carries its
extracted links. -/

/-- src/passage/twine_link.rs: `TwineLink`. -/
structure TwineLink where
  target : List Char
  position : Position
deriving DecidableEq, Repr

/-- Modelled from the spec: the passage content taxonomy (passage.rs is not
under src/).  A Normal body's link list is what `TwineContent::get_links`
returns; body text beyond that is an external collaborator and is not
modelled. -/
inductive PassageContent where
  | normal (links : List TwineLink)
  | storyTitle (body : List (List Char))
  | storyData (body : List (List Char))
  | script
  | stylesheet
deriving DecidableEq, Repr

structure Passage where
  header : PassageHeader
  content : PassageContent
deriving DecidableEq, Repr

instance : Inhabited Position := ⟨Position.origin⟩

instance : Inhabited PassageContent := ⟨PassageContent.script⟩

instance : Inhabited PassageHeader := ⟨⟨[], [], [], Position.origin⟩⟩

instance : Inhabited Passage := ⟨⟨default, default⟩⟩

/-- Modelled from the spec: `Passage::parse` (passage.rs is not under src/).
A chunk's first line goes through the header tokenizer; a failed header yields
the chunk's errors, a successful one is classified by reserved name
(`StoryTitle`/`StoryData`) or tag (`script`/`stylesheet`) into its content
variant.  Body parsing and link extraction are external collaborators and are
not modelled: a Normal body's links are left empty. -/
def Passage.parse (j : JsonExt) (chunk : List (List Char)) :
    Output (Except ErrorList Passage) :=
  let ho := PassageHeader.parse j (chunk.headD [])
  match ho.output with
  | .error e => ⟨.error e, ho.warnings⟩
  | .ok h =>
    let content :=
      if h.name = "StoryTitle".toList then PassageContent.storyTitle (chunk.drop 1)
      else if h.name = "StoryData".toList then PassageContent.storyData (chunk.drop 1)
      else if h.tags.contains "script".toList then PassageContent.script
      else if h.tags.contains "stylesheet".toList then PassageContent.stylesheet
      else PassageContent.normal []
    ⟨.ok ⟨h, content⟩, ho.warnings⟩

/-- Modelled from the spec: `Output::with_offset_row` (output.rs is not under
src/) promotes a sub-parse's local coordinates to document-global ones by a
row offset, on the warnings, the errors, and a successful passage's header. -/
def offsetPassageOutput (o : Output (Except ErrorList Passage)) (d : Nat) :
    Output (Except ErrorList Passage) :=
  ⟨(match o.output with
    | .ok p => .ok ⟨⟨p.header.name, p.header.tags, p.header.metadata,
        p.header.position.offsetRow d⟩, p.content⟩
    | .error e => .error ⟨e.errors.map (·.with_offset_row d)⟩),
   o.warnings.map (·.with_offset_row d)⟩

/-- Association-list model of `HashMap<String, Passage>`: insert overwrites an
existing key's value in place, otherwise appends.  (The HashMap's iteration
order is unspecified; the embedding iterates in insertion order.) -/
def alInsert {β : Type} : List (List Char × β) → List Char → β → List (List Char × β)
  | [], k, v => [(k, v)]
  | kv :: rest, k, v => if kv.1 = k then (k, v) :: rest else kv :: alInsert rest k v

def alLookup {β : Type} : List (List Char × β) → List Char → Option β
  | [], _ => none
  | kv :: rest, k => if kv.1 = k then some kv.2 else alLookup rest k

structure StoryPassages where
  title : Option Passage
  data : Option Passage
  passages : List (List Char × Passage)
  scripts : List Passage
  stylesheets : List Passage
deriving DecidableEq, Repr

/-- story_passages.rs line 244: a chunk boundary is a line whose
leading-whitespace-trimmed form starts with the sigil. -/
def isSigilLine (l : List Char) : Bool := "::".toList.isPrefixOf (trimStart l)

/-- story_passages.rs lines 244-250: the index of the next sigil line strictly
after `start` (the iterator has already consumed the lines up to and including
`start`), or the input length when there is none. -/
def nextSigil (input : List (List Char)) (start : Nat) : Nat :=
  ((List.range input.length).find?
    (fun i => decide (start < i) && isSigilLine (input.getD i []))).getD input.length

/-- story_passages.rs lines 242-257: the chunk decomposition performed by the
parse loop — each chunk is the run of lines from `start` up to (not
including) the next sigil line strictly after `start`, tagged with `start`.
The loop interleaves this with parsing; expressing it as a list of chunks
folded below is the same computation.  The fuel argument of the worker is a
structural termination device only: every chunk advances `start` by at least
one line, so fuel equal to the number of remaining lines never runs out. -/
def chunksAux (input : List (List Char)) : Nat → Nat → List (Nat × List (List Char))
  | 0, _ => []
  | fuel + 1, start =>
    if start < input.length then
      (start, (input.drop start).take (nextSigil input start - start)) ::
        chunksAux input fuel (nextSigil input start)
    else []

def chunksFrom (input : List (List Char)) (start : Nat) :
    List (Nat × List (List Char)) :=
  chunksAux input (input.length - start) start

deriving instance DecidableEq for Except

/-- The loop state of `StoryPassages::parse` (story_passages.rs lines
229-240). -/
structure ParseState where
  title : Option Passage
  data : Option Passage
  passages : List (List Char × Passage)
  scripts : List Passage
  stylesheets : List Passage
  warningList : List Warning
  errorAcc : Except ErrorList Unit
deriving DecidableEq, Repr

/-- story_passages.rs lines 254-288: the body of the parse loop for one
chunk: parse, row-shift, collect warnings, merge errors and continue on a
failed chunk, otherwise classify and fold the passage. -/
def parseStep (j : JsonExt) (st : ParseState) (chunk : Nat × List (List Char)) :
    ParseState :=
  let po := offsetPassageOutput (Passage.parse j chunk.2) chunk.1
  let ws := st.warningList ++ po.warnings
  match po.output with
  | .error e =>
    { st with
      warningList := ws
      errorAcc := ErrorList.merge st.errorAcc (Except.error e : Except ErrorList Passage) }
  | .ok passage =>
    match passage.content with
    | .normal _ =>
      { st with
        warningList := ws
        passages := alInsert st.passages passage.header.name passage }
    | .storyTitle _ =>
      if st.title = none then { st with warningList := ws, title := some passage }
      else { st with warningList := ws ++ [Warning.new .duplicateStoryTitle] }
    | .storyData _ =>
      if st.data = none then { st with warningList := ws, data := some passage }
      else { st with warningList := ws ++ [Warning.new .duplicateStoryData] }
    | .script => { st with warningList := ws, scripts := st.scripts ++ [passage] }
    | .stylesheet => { st with warningList := ws, stylesheets := st.stylesheets ++ [passage] }

/-- story_passages.rs `StoryPassages::parse` (lines 220-293).  Note that the
final lines 291-292 build `Output::new(Ok(story)).with_warnings(warnings)`
unconditionally: the running `errors` accumulator is dropped. -/
def StoryPassages.parse (j : JsonExt) (input : List (List Char)) :
    Output (Except ErrorList StoryPassages) :=
  let st := (chunksFrom input 0).foldl (parseStep j)
    ⟨none, none, [], [], [], [], .ok ()⟩
  (Output.new (.ok ⟨st.title, st.data, st.passages, st.scripts, st.stylesheets⟩)).with_warnings
    st.warningList

/-- story_passages.rs `StoryPassages::merge_from` (lines 146-176), returning
the merged story and the duplicate-special warnings. -/
def StoryPassages.merge_from (s o : StoryPassages) : StoryPassages × List Warning :=
  let tm : Option Passage × List Warning :=
    match s.title, o.title with
    | none, some p => (some p, [])
    | some pe, some pi =>
      (some pe, [⟨.duplicateStoryTitle, pi.header.position, some pe.header.position⟩])
    | t, none => (t, [])
  let dm : Option Passage × List Warning :=
    match s.data, o.data with
    | none, some p => (some p, [])
    | some pe, some pi =>
      (some pe, [⟨.duplicateStoryData, pi.header.position, some pe.header.position⟩])
    | t, none => (t, [])
  (⟨tm.1, dm.1,
    o.passages.foldl (fun acc kv => alInsert acc kv.1 kv.2) s.passages,
    s.scripts ++ o.scripts, s.stylesheets ++ o.stylesheets⟩,
   tm.2 ++ dm.2)

def deadLinkWarning (l : TwineLink) : Warning := ⟨.deadLink l.target, l.position, none⟩

/-- story_passages.rs `StoryPassages::check` (lines 188-213). -/
def StoryPassages.check (s : StoryPassages) : List Warning :=
  (if s.title = none then [Warning.new .missingStoryTitle] else []) ++
  (if s.data = none then [Warning.new .missingStoryData] else []) ++
  s.passages.flatMap (fun kv =>
    match kv.2.content with
    | .normal links =>
      (links.filter (fun l => !(alLookup s.passages l.target).isSome)).map deadLinkWarning
    | _ => [])

/-! ### The span model (src/context/inner_context.rs) -/

structure ContextPosition where
  line : Nat
  column : Nat
deriving DecidableEq, Repr

/-- Modelled from the spec: `ContextPosition::subposition` (context/position.rs
is not under src/) composes the parent position with a 1-indexed relative
(line, column) to globally-correct coordinates: a child on relative line 1
stays on the parent's line with columns added, a later child line is offset
from the parent's line with its own column. -/
def ContextPosition.subposition (p : ContextPosition) (line column : Nat) :
    ContextPosition :=
  if line = 1 then ⟨p.line, p.column + column - 1⟩ else ⟨p.line + line - 1, column⟩

/-- inner_context.rs `util::line_starts`: offset 0 then one past every
newline. -/
def lineStarts (s : List Char) : List Nat :=
  0 :: (matchIndices s ['\n']).map (· + 1)

/-- inner_context.rs `util::to_byte_index`.  Rust indexes `line_starts`
directly and panics out of bounds; the embedding clamps with a 0 default. -/
def to_byte_index (p : ContextPosition) (ls : List Nat) (inclusive : Bool) : Nat :=
  let x := ls.getD (p.line - 1) 0 + p.column
  if inclusive then x else x - 1

/-- inner_context.rs `InnerContext`, without the Rust-side self-reference and
pinning, which exist only to share the buffer without copying: the embedding
stores contents and line-start table directly (`Cow` sharing is a memory
optimisation with no observable effect on contents). -/
structure InnerContext where
  file_name : Option (List Char)
  start_position : ContextPosition
  end_position : ContextPosition
  contents : List Char
  line_starts : List Nat
deriving DecidableEq, Repr

/-- inner_context.rs `InnerContext::new`. -/
def InnerContext.new (fn : Option (List Char)) (sp ep : ContextPosition)
    (contents : List Char) : InnerContext :=
  ⟨fn, sp, ep, contents, lineStarts contents⟩

/-- inner_context.rs `InnerContext::get_contents`. -/
def InnerContext.get_contents (c : InnerContext) : List Char :=
  extract c.contents (to_byte_index c.start_position c.line_starts false)
    (to_byte_index c.end_position c.line_starts true)

/-- inner_context.rs `InnerContext::subcontext`: same buffer and line-start
table, positions composed through the parent's start position. -/
def InnerContext.subcontext (c : InnerContext) (sp ep : ContextPosition) :
    InnerContext :=
  ⟨c.file_name, c.start_position.subposition sp.line sp.column,
   c.start_position.subposition ep.line ep.column, c.contents, c.line_starts⟩

/-! ### Small observation helpers on results -/

def isErrB {ε α : Type} : Except ε α → Bool
  | .error _ => true
  | .ok _ => false

def errorsOf {α : Type} : Except ErrorList α → List Error
  | .error e => e.errors
  | .ok _ => []

/-- Whether a warning is a JsonError. -/
def isJsonErrorW (w : Warning) : Bool :=
  match w.warning_type with
  | .jsonError _ => true
  | _ => false

/-- Spec-side characterisation of the unescaped occurrences of a character:
the positions holding `c` that are not immediately preceded by a backslash. -/
def unescapedIdx (input : List Char) (c : Char) : List Nat :=
  (List.range input.length).filter
    (fun i => decide (input[i]? = some c) &&
      !(decide (1 ≤ i) && decide (input[i - 1]? = some bs)))

def orOpt {α : Type} : Option α → Option α → Option α
  | some v, _ => some v
  | none, b => b

/-- The value of the last pair with the given key, if any (what the external
JSON map retains for a key). -/
def assocLast : Metadata → List Char → Option (List Char)
  | [], _ => none
  | kv :: rest, k =>
    match assocLast rest k with
    | some v => some v
    | none => if kv.1 = k then some kv.2 else none

/-! ### Test fixtures (concrete instantiations for witnesses and
counterexamples) -/

/-- A stub for the external JSON collaborator that always fails at column 1,
as serde does on the spec's malformed-metadata example. -/
def jsonStub : JsonExt := fun _ => .error ("EOF while parsing a string".toList, 1)

def exC1 : List (List Char) := [("::").toList, (":: A").toList]

def exC2 : List (List Char) := [("junk").toList, (":: A").toList]

def exC3 : List Char := (":: na\\\x7bme [tag").toList

def exC4 : List Char := (":: N [a] b]").toList

def hdrC4 : PassageHeader :=
  ⟨("N").toList, [("a]").toList, ("b").toList], defaultMetadata, Position.origin⟩

def exC6 : List Char := (":: Title \x7b\"size\":\"23, \x7d").toList

def hdrC6 : PassageHeader := ⟨("Title").toList, [], defaultMetadata, Position.origin⟩

def hdrAt (r : Nat) (nm : List Char) : PassageHeader :=
  ⟨nm, [], defaultMetadata, ⟨r, 1, none⟩⟩

def titlePassage (r : Nat) : Passage := ⟨hdrAt r ("StoryTitle").toList, .storyTitle []⟩

def dataPassage (r : Nat) : Passage := ⟨hdrAt r ("StoryData").toList, .storyData []⟩

def storyFirst : StoryPassages := ⟨some (titlePassage 0), some (dataPassage 2), [], [], []⟩

def storySecond : StoryPassages := ⟨some (titlePassage 5), some (dataPassage 7), [], [], []⟩

def ctxC9 : InnerContext :=
  InnerContext.new none ⟨1, 1⟩ ⟨2, 5⟩ ("hello\nworld").toList

def exC10 : List Char := (":: pa\\th").toList

def hdrC10 : PassageHeader := ⟨("path").toList, [], defaultMetadata, Position.origin⟩

/-! ### Theorems -/

theorem subposition_assoc (p q r : ContextPosition)
    (hq1 : 1 ≤ q.line) (hq2 : 1 ≤ q.column) (hr1 : 1 ≤ r.line) (hr2 : 1 ≤ r.column) :
    (p.subposition q.line q.column).subposition r.line r.column =
      p.subposition (q.subposition r.line r.column).line
        (q.subposition r.line r.column).column := by
  rcases p with ⟨pl, pc⟩
  rcases q with ⟨ql, qc⟩
  rcases r with ⟨rl, rc⟩
  simp only [ContextPosition.subposition] at *
  split_ifs <;> simp_all [ContextPosition.mk.injEq] <;> omega

/-- C9: deriving a sub-span from an already-derived sub-span and materializing
its contents with get_contents yields the same substring as deriving a single
sub-span directly from the original span with composed (line, column)
offsets.  The offsets are 1-indexed per the data model's Position invariant. -/
theorem c9_subcontext_compose (ctx : InnerContext) (a b c d : ContextPosition)
    (ha1 : 1 ≤ a.line) (ha2 : 1 ≤ a.column) (hc1 : 1 ≤ c.line) (hc2 : 1 ≤ c.column)
    (hd1 : 1 ≤ d.line) (hd2 : 1 ≤ d.column) :
    ((ctx.subcontext a b).subcontext c d).get_contents =
      (ctx.subcontext (a.subposition c.line c.column)
        (a.subposition d.line d.column)).get_contents := by
  have hs : ((ctx.subcontext a b).subcontext c d) =
      ctx.subcontext (a.subposition c.line c.column) (a.subposition d.line d.column) := by
    simp only [InnerContext.subcontext, InnerContext.mk.injEq, and_true, true_and]
    exact ⟨subposition_assoc ctx.start_position a c ha1 ha2 hc1 hc2,
      subposition_assoc ctx.start_position a d ha1 ha2 hd1 hd2⟩
  rw [hs]

theorem c9_witness :
    ((ctxC9.subcontext ⟨1, 3⟩ ⟨2, 5⟩).subcontext ⟨2, 2⟩ ⟨2, 4⟩).get_contents =
      (ctxC9.subcontext ((⟨1, 3⟩ : ContextPosition).subposition 2 2)
        ((⟨1, 3⟩ : ContextPosition).subposition 2 4)).get_contents :=
  c9_subcontext_compose ctxC9 ⟨1, 3⟩ ⟨2, 5⟩ ⟨2, 2⟩ ⟨2, 4⟩
    (by decide) (by decide) (by decide) (by decide) (by decide) (by decide)

/-- C7: when both merged stories carry a StoryTitle (respectively StoryData)
passage, merge_from keeps the existing passage, drops the incoming one, and
emits exactly one DuplicateStoryTitle (respectively DuplicateStoryData)
warning positioned at the incoming passage's position with the existing
passage's position as referent. -/
theorem c7_merge_duplicate_specials (s o : StoryPassages) :
    (∀ pe pi, s.title = some pe → o.title = some pi →
      (s.merge_from o).1.title = some pe ∧
      (s.merge_from o).2.filter
          (fun w => decide (w.warning_type = WarningType.duplicateStoryTitle)) =
        [⟨.duplicateStoryTitle, pi.header.position, some pe.header.position⟩])
  ∧ (∀ qe qi, s.data = some qe → o.data = some qi →
      (s.merge_from o).1.data = some qe ∧
      (s.merge_from o).2.filter
          (fun w => decide (w.warning_type = WarningType.duplicateStoryData)) =
        [⟨.duplicateStoryData, qi.header.position, some qe.header.position⟩]) := by
  constructor
  · intro pe pi ht1 ht2
    rcases hd1 : s.data with _ | qe <;> rcases hd2 : o.data with _ | qi <;>
      simp [StoryPassages.merge_from, ht1, ht2, hd1, hd2]
  · intro qe qi hd1 hd2
    rcases ht1 : s.title with _ | pe <;> rcases ht2 : o.title with _ | pi <;>
      simp [StoryPassages.merge_from, ht1, ht2, hd1, hd2]

theorem c7_witness :
    (storyFirst.merge_from storySecond).1.title = some (titlePassage 0) ∧
    (storyFirst.merge_from storySecond).2.filter
        (fun w => decide (w.warning_type = WarningType.duplicateStoryTitle)) =
      [⟨.duplicateStoryTitle, (titlePassage 5).header.position,
        some (titlePassage 0).header.position⟩] :=
  (c7_merge_duplicate_specials storyFirst storySecond).1 (titlePassage 0)
    (titlePassage 5) rfl rfl

theorem countP_flatMap {α β : Type} (l : List α) (f : α → List β) (p : β → Bool) :
    (l.flatMap f).countP p = (l.map (fun a => (f a).countP p)).sum := by
  induction l with
  | nil => simp
  | cons a t ih => simp [List.flatMap_cons, List.countP_append, ih]

/-- The dead-link portion of `check`, characterised by membership. -/
theorem mem_deadPart (s : StoryPassages) (w : Warning) :
    (w ∈ s.passages.flatMap (fun kv =>
      match kv.2.content with
      | PassageContent.normal links =>
        (links.filter (fun l => !(alLookup s.passages l.target).isSome)).map deadLinkWarning
      | _ => [])) ↔
    ∃ kv, kv ∈ s.passages ∧ ∃ links, kv.2.content = PassageContent.normal links ∧
      ∃ l, l ∈ links ∧ (alLookup s.passages l.target).isSome = false ∧
        w = deadLinkWarning l := by
  simp only [List.mem_flatMap]
  constructor
  · rintro ⟨kv, hkv, hw⟩
    rcases hcc : kv.2.content with links | b | b | _ | _ <;> rw [hcc] at hw <;>
      simp only [List.mem_map, List.mem_filter, List.not_mem_nil] at hw
    · rcases hw with ⟨l, ⟨hl, hdead⟩, rfl⟩
      exact ⟨kv, hkv, links, hcc, l, hl, by simpa using hdead, rfl⟩
  · rintro ⟨kv, hkv, links, hcc, l, hl, hdead, rfl⟩
    refine ⟨kv, hkv, ?_⟩
    rw [hcc]
    simp only [List.mem_map, List.mem_filter]
    exact ⟨l, ⟨hl, by simpa using hdead⟩, rfl⟩

/-- The dead-link portion of `check`, at a DeadLink warning of given target
and position. -/
theorem mem_deadPart_deadLink (s : StoryPassages) (t : List Char) (pos : Position) :
    (((⟨.deadLink t, pos, none⟩ : Warning) ∈ s.passages.flatMap (fun kv =>
      match kv.2.content with
      | PassageContent.normal links =>
        (links.filter (fun l => !(alLookup s.passages l.target).isSome)).map deadLinkWarning
      | _ => [])) ↔
    ∃ kv, kv ∈ s.passages ∧ ∃ links, kv.2.content = PassageContent.normal links ∧
      (⟨t, pos⟩ : TwineLink) ∈ links ∧ (alLookup s.passages t).isSome = false) := by
  rw [mem_deadPart]
  constructor
  · rintro ⟨kv, hkv, links, hcc, l, hl, hdead, heq⟩
    rcases l with ⟨lt, lp⟩
    simp only [deadLinkWarning, Warning.mk.injEq, WarningType.deadLink.injEq,
      and_true] at heq
    rcases heq with ⟨rfl, rfl⟩
    exact ⟨kv, hkv, links, hcc, hl, hdead⟩
  · rintro ⟨kv, hkv, links, hcc, hl, hdead⟩
    exact ⟨kv, hkv, links, hcc, ⟨t, pos⟩, hl, hdead, rfl⟩

/-- C8: check() emits MissingStoryTitle exactly when the title slot is empty,
MissingStoryData exactly when the data slot is empty, and, per Normal passage
and link whose target is absent from the passage map, one DeadLink(target)
warning positioned at the link's own source location. -/
theorem c8_check_warnings (s : StoryPassages) :
    ((Warning.new .missingStoryTitle ∈ s.check) ↔ s.title = none)
  ∧ ((Warning.new .missingStoryData ∈ s.check) ↔ s.data = none)
  ∧ (∀ t pos, (((⟨.deadLink t, pos, none⟩ : Warning) ∈ s.check) ↔
      ∃ kv, kv ∈ s.passages ∧ ∃ links, kv.2.content = PassageContent.normal links ∧
        (⟨t, pos⟩ : TwineLink) ∈ links ∧ (alLookup s.passages t).isSome = false))
  ∧ (∀ t pos, s.check.countP (fun w => decide (w = ⟨.deadLink t, pos, none⟩)) =
      (s.passages.map (fun kv =>
        match kv.2.content with
        | PassageContent.normal links =>
          links.countP (fun l => decide (l = (⟨t, pos⟩ : TwineLink)) &&
            !(alLookup s.passages l.target).isSome)
        | _ => 0)).sum) := by
  refine ⟨?_, ?_, ?_, ?_⟩
  · have hdp := mem_deadPart s (Warning.new WarningType.missingStoryTitle)
    unfold StoryPassages.check
    rw [List.mem_append, List.mem_append, hdp]
    by_cases ht : s.title = none <;> by_cases hd : s.data = none <;>
      simp [ht, hd, Warning.new, deadLinkWarning, Warning.mk.injEq]
  · have hdp := mem_deadPart s (Warning.new WarningType.missingStoryData)
    unfold StoryPassages.check
    rw [List.mem_append, List.mem_append, hdp]
    by_cases ht : s.title = none <;> by_cases hd : s.data = none <;>
      simp [ht, hd, Warning.new, deadLinkWarning, Warning.mk.injEq]
  · intro t pos
    have hdp := mem_deadPart_deadLink s t pos
    unfold StoryPassages.check
    rw [List.mem_append, List.mem_append, hdp]
    by_cases ht : s.title = none <;> by_cases hd : s.data = none <;>
      simp [ht, hd, Warning.new, Warning.mk.injEq]
  · intro t pos
    have hA : ∀ b : List Warning,
        (if s.title = none then [Warning.new WarningType.missingStoryTitle] else
          ([] : List Warning)).countP
            (fun w => decide (w = ⟨.deadLink t, pos, none⟩)) = 0 := by
      intro _
      by_cases ht : s.title = none <;> simp [ht, Warning.new]
    have hB : (if s.data = none then [Warning.new WarningType.missingStoryData] else
        ([] : List Warning)).countP
          (fun w => decide (w = ⟨.deadLink t, pos, none⟩)) = 0 := by
      by_cases hd : s.data = none <;> simp [hd, Warning.new]
    simp only [StoryPassages.check, List.countP_append, hA [], hB, Nat.zero_add,
      countP_flatMap]
    congr 1
    apply List.map_congr_left
    intro kv _
    rcases hcc : kv.2.content with links | b | b | _ | _ <;> simp only
    · rw [List.countP_map, List.countP_filter]
      apply List.countP_congr
      intro l _
      rcases l with ⟨lt, lp⟩
      simp [deadLinkWarning, Function.comp, Warning.mk.injEq, TwineLink.mk.injEq,
        Bool.and_comm]
    all_goals simp

theorem lt_nextSigil (input : List (List Char)) (start : Nat)
    (h : start < input.length) : start < nextSigil input start := by
  unfold nextSigil
  cases hf : (List.range input.length).find?
      (fun i => decide (start < i) && isSigilLine (input.getD i [])) with
  | none => simpa using h
  | some i =>
    have h2 := List.find?_some hf
    simp only [Bool.and_eq_true, decide_eq_true_eq] at h2
    simpa using h2.1

theorem nextSigil_le (input : List (List Char)) (start : Nat) :
    nextSigil input start ≤ input.length := by
  unfold nextSigil
  cases hf : (List.range input.length).find?
      (fun i => decide (start < i) && isSigilLine (input.getD i [])) with
  | none => simp
  | some i =>
    have h2 := List.mem_range.mp (List.mem_of_find?_eq_some hf)
    simpa using Nat.le_of_lt h2

theorem nextSigil_found (input : List (List Char)) (start : Nat)
    (h : nextSigil input start < input.length) :
    isSigilLine (input.getD (nextSigil input start) []) = true := by
  unfold nextSigil at h ⊢
  cases hf : (List.range input.length).find?
      (fun i => decide (start < i) && isSigilLine (input.getD i [])) with
  | none => rw [hf] at h; simp at h
  | some i =>
    have h2 := List.find?_some hf
    simp only [Bool.and_eq_true, decide_eq_true_eq] at h2
    simpa using h2.2

theorem chunksAux_flatten (input : List (List Char)) :
    ∀ fuel s, input.length - s ≤ fuel →
      ((chunksAux input fuel s).map (fun c => c.2)).flatten = input.drop s := by
  intro fuel
  induction fuel with
  | zero =>
    intro s hs
    rw [List.drop_eq_nil_of_le (by omega)]
    simp [chunksAux]
  | succ n ih =>
    intro s hs
    rw [chunksAux]
    split
    · rename_i hlt
      have h1 := lt_nextSigil input s hlt
      have hrec := ih (nextSigil input s) (by omega)
      have hdd : List.drop (nextSigil input s) input =
          List.drop (nextSigil input s - s) (List.drop s input) := by
        rw [List.drop_drop]
        congr 1
        omega
      simp only [List.map_cons, List.flatten_cons, hrec, hdd]
      exact List.take_append_drop _ _
    · rename_i hge
      rw [List.drop_eq_nil_of_le (by omega)]
      simp

/-- The chunks produced by the splitter concatenate back to the input lines
from the starting row on: nothing is discarded. -/
theorem chunks_flatten (input : List (List Char)) (s : Nat) :
    ((chunksFrom input s).map (fun c => c.2)).flatten = input.drop s :=
  chunksAux_flatten input (input.length - s) s (Nat.le_refl _)

theorem chunksAux_mem_spec (input : List (List Char)) :
    ∀ fuel s, ∀ c ∈ chunksAux input fuel s, c.1 < input.length ∧
      c.2.headD [] = input.getD c.1 [] ∧
      (c.1 = s ∨ isSigilLine (input.getD c.1 []) = true) := by
  intro fuel
  induction fuel with
  | zero =>
    intro s c hc
    simp [chunksAux] at hc
  | succ n ih =>
    intro s c hc
    rw [chunksAux] at hc
    split at hc
    · rename_i hlt
      rcases List.mem_cons.mp hc with rfl | hc'
      · refine ⟨hlt, ?_, Or.inl rfl⟩
        have h1 := lt_nextSigil input s hlt
        have hne : input.drop s ≠ [] := by
          simp only [ne_eq, List.drop_eq_nil_iff]
          omega
        cases hd : input.drop s with
        | nil => exact absurd hd hne
        | cons x t =>
          have hk : nextSigil input s - s = (nextSigil input s - s - 1) + 1 := by
            omega
          have hx : input[s]? = some x := by
            rw [← List.head?_drop, hd]
            rfl
          rw [hk]
          simp [List.getD_eq_getElem?_getD, hx]
      · have hrec := ih (nextSigil input s) c hc'
        refine ⟨hrec.1, hrec.2.1, ?_⟩
        rcases hrec.2.2 with heq | hsig
        · right
          rw [heq]
          exact nextSigil_found input s (heq ▸ hrec.1)
        · exact Or.inr hsig
    · exact absurd hc (List.not_mem_nil c)

/-- Shape of every chunk: it starts at a row inside the input, its first line
is the input line at its starting row, and every chunk but the one starting
at the initial row starts at a sigil line. -/
theorem chunks_mem_spec (input : List (List Char)) (s : Nat) :
    ∀ c ∈ chunksFrom input s, c.1 < input.length ∧
      c.2.headD [] = input.getD c.1 [] ∧
      (c.1 = s ∨ isSigilLine (input.getD c.1 []) = true) :=
  chunksAux_mem_spec input (input.length - s) s

/-- C1 (code-bug evidence): on a document whose second chunk is the lone
header line `::` (EmptyName, a failed header), the chunk's own parse fails,
yet StoryPassages::parse still returns an Ok story — the merged ErrorList is
dropped by the unconditional `Output::new(Ok(story))` at the end of the loop —
while the other chunk's passage is still collected. -/
theorem c1_parse_drops_chunk_errors :
    isErrB (Passage.parse jsonStub [("::").toList]).output = true
  ∧ (StoryPassages.parse jsonStub exC1).output.isOk = true
  ∧ (match (StoryPassages.parse jsonStub exC1).output with
     | .ok s => (alLookup s.passages (("A").toList)).isSome
     | .error _ => false) = true := by decide

/-- C2 counterexample: on the document `junk` / `:: A`, the first chunk is
`(0, [junk])` — it contains the preamble line and starts at row 0, not at the
first sigil line — refuting the claim that the splitter discards the leading
preamble. -/
theorem c2_counterexample :
    chunksFrom exC2 0 = [(0, [("junk").toList]), (1, [(":: A").toList])] ∧
    isSigilLine (("junk").toList) = false := by decide

/-- C2 (amended): the splitter does not discard a leading preamble — the
first chunk always begins at row 0 and includes any leading non-sigil lines,
the chunks concatenate back to the whole document, and every chunk after the
first begins at a sigil line. -/
theorem c2_splitter_keeps_preamble (input : List (List Char)) :
    ((chunksFrom input 0).map (fun c => c.2)).flatten = input
  ∧ ((chunksFrom input 0).head?.all (fun c => decide (c.1 = 0)) = true)
  ∧ ((chunksFrom input 0).tail.all
      (fun c => isSigilLine (c.2.headD [])) = true) := by
  refine ⟨?_, ?_, ?_⟩
  · simpa using chunks_flatten input 0
  · cases input with
    | nil => simp [chunksFrom, chunksAux]
    | cons a t => simp [chunksFrom, chunksAux]
  · cases input with
    | nil => simp [chunksFrom, chunksAux]
    | cons a t =>
      have htail : (chunksFrom (a :: t) 0).tail =
          chunksAux (a :: t) t.length (nextSigil (a :: t) 0) := by
        simp [chunksFrom, chunksAux]
      rw [htail, List.all_eq_true]
      intro c hc
      have hspec := chunksAux_mem_spec (a :: t) t.length (nextSigil (a :: t) 0) c hc
      rcases hspec with ⟨hlt, hhead, hstart | hsig⟩
      · rw [hhead, hstart]
        exact nextSigil_found (a :: t) 0 (hstart ▸ hlt)
      · rw [hhead]
        exact hsig

/-- Dissection of a successful header parse into its stage components. -/
theorem parse_ok_parts (j : JsonExt) (input : List Char) (h : PassageHeader)
    (hok : (PassageHeader.parse j input).output = .ok h) :
    headerErrors input = [] ∧
    h = ⟨rawName input (nameBoundary input),
      (tagStage input (nameEndAfterMeta input)).1, (metaOutcome j input).2,
      Position.origin⟩ ∧
    (PassageHeader.parse j input).warnings = headerWarnings j input := by
  unfold PassageHeader.parse at hok ⊢
  by_cases hc : headerErrors input = []
  · rw [if_pos hc] at hok ⊢
    simp only [Output.new, Output.with_warnings, Except.ok.injEq] at hok
    exact ⟨hc, hok.symm, rfl⟩
  · rw [if_neg hc] at hok
    simp [Output.new] at hok

/-- C3 counterexample: the header `:: na\{me [tag` accumulates an
EscapedOpenCurly warning during name validation (check_name reports escape
index 5) and an UnclosedTagBlock error, but the returned Output carries the
error with an empty warning list: the warning was dropped. -/
theorem c3_counterexample :
    isErrB (PassageHeader.parse jsonStub exC3).output = true
  ∧ (PassageHeader.parse jsonStub exC3).warnings = []
  ∧ check_name (exC3.take (nameBoundary exC3)) ['\x7b']
      ErrorType.unescapedOpenCurly = .ok [5]
  ∧ (nameSpecials exC3 (nameBoundary exC3)).2 ≠ [] := by decide

/-- C3 (amended): PassageHeader::parse retains the accumulated warnings only
when the inner result is a success; when the accumulated error list is
non-empty it returns the errors with an empty warning list, discarding any
warnings collected before the failure. -/
theorem c3_err_drops_warnings (j : JsonExt) (input : List Char)
    (h : isErrB (PassageHeader.parse j input).output = true) :
    (PassageHeader.parse j input).warnings = [] := by
  unfold PassageHeader.parse at h ⊢
  by_cases hc : headerErrors input = []
  · rw [if_pos hc] at h
    simp [Output.new, Output.with_warnings, isErrB] at h
  · rw [if_neg hc]
    rfl

theorem c3_witness : (PassageHeader.parse jsonStub exC3).warnings = [] :=
  c3_err_drops_warnings jsonStub exC3 (by decide)

theorem replaceEmptyAux_single (c : Char) :
    ∀ fuel l, l.length ≤ fuel →
      replaceEmptyAux [c] fuel l = l.filter (fun d => decide (d ≠ c)) := by
  intro fuel
  induction fuel with
  | zero =>
    intro l hl
    cases l with
    | nil => simp [replaceEmptyAux]
    | cons x rest => simp at hl
  | succ n ih =>
    intro l hl
    cases l with
    | nil => simp [replaceEmptyAux]
    | cons x rest =>
      simp only [List.length_cons] at hl
      by_cases hx : x = c
      · have hcond : ([c] ≠ [] ∧ [c].isPrefixOf (x :: rest)) := by
          refine ⟨by simp, ?_⟩
          simp [List.isPrefixOf, hx]
        rw [replaceEmptyAux, if_pos hcond]
        simp only [List.length_singleton, List.drop_succ_cons, List.drop_zero]
        rw [ih rest (by omega)]
        simp [List.filter_cons, hx]
      · have hcond : ¬([c] ≠ [] ∧ [c].isPrefixOf (x :: rest)) := by
          simp only [List.isPrefixOf, List.isPrefixOf_nil_left, Bool.and_true,
            ne_eq, not_and]
          intro _
          simp only [beq_iff_eq]
          intro hcx
          exact hx hcx.symm
        rw [replaceEmptyAux, if_neg hcond]
        rw [ih rest (by omega)]
        simp [List.filter_cons, hx]

theorem replaceEmpty_single (l : List Char) (c : Char) :
    replaceEmpty l [c] = l.filter (fun d => decide (d ≠ c)) :=
  replaceEmptyAux_single c l.length l (Nat.le_refl _)

/-- C10: a successfully parsed header's name is the prefix between the
two-character sigil and the name boundary, trimmed, with every backslash
character removed — not only those forming the four recognized escapes. -/
theorem c10_name_extraction (j : JsonExt) (input : List Char) (h : PassageHeader)
    (hok : (PassageHeader.parse j input).output = .ok h) :
    h.name = (trim (extract input 2 (nameBoundary input))).filter
      (fun d => decide (d ≠ bs)) := by
  obtain ⟨herr, hh, -⟩ := parse_ok_parts j input h hok
  rw [hh]
  show rawName input (nameBoundary input) = _
  by_cases hlt : 2 < nameBoundary input
  · unfold rawName
    rw [if_pos hlt, replaceEmpty_single]
  · exfalso
    have hnil : rawName input (nameBoundary input) = [] := by
      unfold rawName
      rw [if_neg hlt]
    unfold headerErrors at herr
    rw [hnil] at herr
    simp at herr

theorem c10_witness :
    (trim (extract exC10 2 (nameBoundary exC10))).filter
      (fun d => decide (d ≠ bs)) = ("path").toList :=
  (c10_name_extraction jsonStub exC10 hdrC10 (by decide)).symm

/-- C4 counterexample: on the header `:: N [a] b]` the code takes the LAST
`]` before the boundary as the tag-block closer, yielding tags `a]`, `b`; the
claim's "first unescaped `]`" would instead yield the single tag `a`. -/
theorem c4_counterexample :
    (match (PassageHeader.parse jsonStub exC4).output with
     | .ok h => h.tags
     | .error _ => []) = [("a]").toList, ("b").toList]
  ∧ (match (PassageHeader.parse jsonStub exC4).output with
     | .ok h => h.tags
     | .error _ => []) ≠ [("a").toList] := by decide

/-- C4 (amended): the tag block opener is the last `[` before the metadata
boundary provided that occurrence is unescaped (find_last_unescaped), and the
closer is likewise the last `]` strictly between the opener and the metadata
boundary provided that occurrence is unescaped — not the first.  When both
are found, the tags are the whitespace-split trimmed content between them
(empty content gives an empty tag list, not an error); when no closer is
accepted, UnclosedTagBlock is reported at the `[` column. -/
theorem c4_tag_block_scan (j : JsonExt) (input : List Char) (pos : Nat)
    (hflu : find_last_unescaped (input.take (nameEndAfterMeta input)) ['['] =
      some pos) :
    (∀ p, find_last_unescaped (extract input (pos + 1) (nameEndAfterMeta input))
        [']'] = some p →
      ∀ h, (PassageHeader.parse j input).output = .ok h →
        h.tags = splitWs (trim (extract input (pos + 1) (pos + 1 + p))))
  ∧ (find_last_unescaped (extract input (pos + 1) (nameEndAfterMeta input))
        [']'] = none →
      isErrB (PassageHeader.parse j input).output = true ∧
      (Error.new ErrorType.unclosedTagBlock).with_column (pos + 1) ∈
        errorsOf (PassageHeader.parse j input).output) := by
  constructor
  · intro p hp h hok
    obtain ⟨herr, hh, -⟩ := parse_ok_parts j input h hok
    rw [hh]
    show (tagStage input (nameEndAfterMeta input)).1 = _
    unfold tagStage
    rw [hflu]
    simp only [hp]
  · intro hp
    have hts : (tagStage input (nameEndAfterMeta input)).2.1 =
        [(Error.new ErrorType.unclosedTagBlock).with_column (pos + 1)] := by
      unfold tagStage
      rw [hflu]
      simp only [hp]
    have hne : headerErrors input ≠ [] := by
      unfold headerErrors
      rw [hts]
      simp
    unfold PassageHeader.parse
    rw [if_neg hne]
    refine ⟨rfl, ?_⟩
    show _ ∈ headerErrors input
    unfold headerErrors
    rw [hts]
    simp

theorem c4_witness :
    hdrC4.tags = splitWs (trim (extract exC4 6 10)) :=
  (c4_tag_block_scan jsonStub exC4 5 (by decide)).1 4 (by decide) hdrC4 (by decide)

theorem metaLookup_insert (m : Metadata) (k' v k : List Char) :
    metaLookup (metaInsert m k' v) k =
      if k = k' then some v else metaLookup m k := by
  induction m with
  | nil =>
    by_cases h : k = k'
    · subst h
      simp [metaInsert, metaLookup]
    · have h' : ¬ k' = k := fun hk => h hk.symm
      simp [metaInsert, metaLookup, h, h']
  | cons kv rest ih =>
    by_cases h1 : kv.1 = k'
    · rw [metaInsert, if_pos h1]
      by_cases h : k = k'
      · subst h
        simp [metaLookup]
      · have h' : ¬ k' = k := fun hk => h hk.symm
        have h2 : ¬ kv.1 = k := h1 ▸ h'
        simp [metaLookup, h, h', h2]
    · rw [metaInsert, if_neg h1]
      by_cases h2 : kv.1 = k
      · have hne : ¬ k = k' := fun hk => h1 (by rw [h2, hk])
        simp [metaLookup, h2, hne]
      · simp [metaLookup, h2, ih]

theorem metaLookup_foldl (m : Metadata) (acc : Metadata) (k : List Char) :
    metaLookup (m.foldl (fun a kv => metaInsert a kv.1 kv.2) acc) k =
      orOpt (assocLast m k) (metaLookup acc k) := by
  induction m generalizing acc with
  | nil => simp [assocLast, orOpt]
  | cons kv rest ih =>
    rw [List.foldl_cons, ih]
    show _ = orOpt (assocLast (kv :: rest) k) _
    rw [assocLast]
    cases hrest : assocLast rest k with
    | some v => simp [orOpt]
    | none =>
      simp only [orOpt, metaLookup_insert]
      by_cases h : k = kv.1
      · simp [h, orOpt]
      · have : ¬ kv.1 = k := fun hk => h hk.symm
        simp [h, this, orOpt]

/-- Every warning produced by the name-validation stage is an
escaped-character warning, never a JsonError. -/
theorem nameSpecials_no_json (input : List Char) (nep : Nat) :
    ∀ w ∈ (nameSpecials input nep).2, isJsonErrorW w = false := by
  have haux : ∀ (ts : List (List Char × ErrorType × WarningType))
      (acc : List Error × List Warning),
      (∀ w ∈ acc.2, isJsonErrorW w = false) →
      (∀ t ∈ ts, ∀ i : Nat,
        isJsonErrorW ((Warning.new t.2.2).with_column (i + 1)) = false) →
      ∀ w ∈ (ts.foldl (fun acc t =>
          match check_name (input.take nep) t.1 t.2.1 with
          | .error e => (acc.1 ++ [e], acc.2)
          | .ok idxs =>
            (acc.1, acc.2 ++ idxs.map (fun i =>
              (Warning.new t.2.2).with_column (i + 1)))) acc).2,
        isJsonErrorW w = false := by
    intro ts
    induction ts with
    | nil =>
      intro acc hacc hts w hw
      exact hacc w hw
    | cons t rest ih =>
      intro acc hacc hts w hw
      rw [List.foldl_cons] at hw
      refine ih _ ?_ (fun t' ht' => hts t' (List.mem_cons_of_mem _ ht')) w hw
      cases hcn : check_name (input.take nep) t.1 t.2.1 with
      | error e => simpa [hcn] using hacc
      | ok idxs =>
        simp only [hcn]
        intro w' hw'
        rcases List.mem_append.mp hw' with h1 | h2
        · exact hacc w' h1
        · rcases List.mem_map.mp h2 with ⟨i, hi, rfl⟩
          exact hts t (List.mem_cons_self _ _) i
  intro w hw
  unfold nameSpecials at hw
  refine haux specialTriples ([], []) (by simp) ?_ w hw
  intro t ht i
  simp only [specialTriples, List.mem_cons, List.not_mem_nil, or_false] at ht
  rcases ht with rfl | rfl | rfl | rfl <;> rfl

/-- C6: the metadata map is the defaults overridden by the successfully
parsed keys; a JSON failure never affects whether the header parses (the
error list is independent of the JSON parser), keeps the defaults unchanged,
and yields exactly one JsonError warning whose column is the parser's
reported column offset by the metadata start. -/
theorem c6_metadata_defaults (j j' : JsonExt) (input : List Char) (rs re : Nat)
    (hr : guess_metadata_range input = some (rs, re)) :
    ((PassageHeader.parse j input).output.isOk =
      (PassageHeader.parse j' input).output.isOk)
  ∧ (∀ msg c, j (extract input rs re) = .error (msg, c) →
      ∀ h, (PassageHeader.parse j input).output = .ok h →
        h.metadata = defaultMetadata ∧
        (PassageHeader.parse j input).warnings.filter isJsonErrorW =
          [⟨.jsonError msg, ⟨0, c + rs, none⟩, none⟩])
  ∧ (∀ m, j (extract input rs re) = .ok m →
      ∀ h, (PassageHeader.parse j input).output = .ok h →
        ∀ k, metaLookup h.metadata k =
          orOpt (assocLast m k) (metaLookup defaultMetadata k)) := by
  refine ⟨?_, ?_, ?_⟩
  · by_cases hc : headerErrors input = [] <;>
      simp [PassageHeader.parse, hc, Output.new, Output.with_warnings, Except.isOk,
        Except.toBool]
  · intro msg c hjson h hok
    obtain ⟨herr, hh, hw⟩ := parse_ok_parts j input h hok
    have hmo : metaOutcome j input =
        ([⟨.jsonError msg, ⟨0, c + rs, none⟩, none⟩], defaultMetadata) := by
      unfold metaOutcome parse_metadata
      rw [hr]
      simp only [hjson]
      rfl
    constructor
    · rw [hh]
      show (metaOutcome j input).2 = defaultMetadata
      rw [hmo]
    · rw [hw]
      unfold headerWarnings
      rw [hmo, List.filter_append]
      have h2 : (nameSpecials input (nameBoundary input)).2.filter isJsonErrorW
          = [] := by
        rw [List.filter_eq_nil_iff]
        intro w hwmem
        simp [nameSpecials_no_json input (nameBoundary input) w hwmem]
      rw [h2]
      rfl
  · intro m hjson h hok k
    obtain ⟨herr, hh, -⟩ := parse_ok_parts j input h hok
    have hmo : metaOutcome j input =
        ([], m.foldl (fun a kv => metaInsert a kv.1 kv.2) defaultMetadata) := by
      unfold metaOutcome parse_metadata
      rw [hr]
      simp only [hjson]
    rw [hh]
    show metaLookup (metaOutcome j input).2 k = _
    rw [hmo]
    exact metaLookup_foldl m defaultMetadata k

theorem c6_witness :
    hdrC6.metadata = defaultMetadata ∧
    (PassageHeader.parse jsonStub exC6).warnings.filter isJsonErrorW =
      [⟨.jsonError (("EOF while parsing a string").toList), ⟨0, 10, none⟩, none⟩] :=
  (c6_metadata_defaults jsonStub jsonStub exC6 9 23 (by decide)).2.1
    (("EOF while parsing a string").toList) 1 (by decide) hdrC6 (by decide)

theorem isPrefixOf_single (a : Char) (l : List Char) :
    ([a].isPrefixOf l) = decide (l.head? = some a) := by
  cases l with
  | nil => simp [List.isPrefixOf]
  | cons x xs =>
    by_cases h : x = a
    · subst h
      simp [List.isPrefixOf]
    · have h' : ¬ a = x := fun hk => h hk.symm
      simp [List.isPrefixOf, h, h']

theorem isPrefixOf_pair (a b : Char) (l : List Char) :
    ([a, b].isPrefixOf l) =
      (decide (l.head? = some a) && decide (l.tail.head? = some b)) := by
  cases l with
  | nil => simp [List.isPrefixOf]
  | cons x xs =>
    have hs : ([a, b].isPrefixOf (x :: xs)) = ((a == x) && [b].isPrefixOf xs) := rfl
    rw [hs, isPrefixOf_single]
    by_cases h : x = a
    · subst h
      simp
    · have h' : ¬ a = x := fun hk => h hk.symm
      simp [h, h']

theorem mem_matchIndices_pair (input : List Char) (a b : Char) (j : Nat) :
    j ∈ matchIndices input [a, b] ↔
      input[j]? = some a ∧ input[j + 1]? = some b := by
  simp only [matchIndices, List.mem_filter, List.mem_range, isPrefixOf_pair,
    List.head?_drop, List.tail_drop, Bool.and_eq_true, decide_eq_true_eq]
  constructor
  · rintro ⟨-, h⟩
    exact h
  · rintro ⟨h1, h2⟩
    refine ⟨?_, h1, h2⟩
    have := List.getElem?_eq_some_iff.mp h1
    exact this.1

theorem mem_escapedIdx (input : List Char) (c : Char) (i : Nat) :
    (i ∈ (matchIndices input (bs :: [c])).map (· + 1)) ↔
      (1 ≤ i ∧ input[i - 1]? = some bs ∧ input[i]? = some c) := by
  simp only [List.mem_map, mem_matchIndices_pair]
  constructor
  · rintro ⟨jj, ⟨h1, h2⟩, rfl⟩
    refine ⟨by omega, ?_, h2⟩
    simpa using h1
  · rintro ⟨h0, h1, h2⟩
    refine ⟨i - 1, ⟨h1, ?_⟩, by omega⟩
    have hk : i - 1 + 1 = i := by omega
    rw [hk]
    exact h2

/-- header.rs `find_all_unescaped` computes exactly the spec's notion of
unescaped occurrences of a character: the positions holding it that are not
immediately preceded by a backslash. -/
theorem find_all_unescaped_eq (input : List Char) (c : Char) :
    find_all_unescaped input [c] = unescapedIdx input c := by
  simp only [find_all_unescaped, unescapedIdx, matchIndices, List.filter_filter]
  apply List.filter_congr
  intro i hi
  apply Bool.eq_iff_iff.mpr
  simp only [Bool.and_eq_true, decide_eq_true_eq, Bool.not_eq_true',
    decide_eq_false_iff_not, isPrefixOf_single, List.head?_drop,
    List.elem_iff, mem_escapedIdx]
  constructor
  · rintro ⟨hnin, hA⟩
    refine ⟨hA, ?_⟩
    have hnin' : ¬ (i ∈ (matchIndices input (bs :: [c])).map (· + 1)) := hnin
    have hnt : ¬ (1 ≤ i ∧ input[i - 1]? = some bs ∧ input[i]? = some c) :=
      fun ht => hnin' ((mem_escapedIdx input c i).mpr ht)
    by_cases h1 : 1 ≤ i
    · by_cases h2 : input[i - 1]? = some bs
      · exact absurd ⟨h1, h2, hA⟩ hnt
      · simp [h2]
    · simp [h1]
  · rintro ⟨hA, hb⟩
    refine ⟨?_, hA⟩
    intro hmem
    have hmem' : i ∈ (matchIndices input (bs :: [c])).map (· + 1) := hmem
    rcases (mem_escapedIdx input c i).mp hmem' with ⟨h1, h2, h3⟩
    simp [h1, h2] at hb

/-- C5: the metadata region over the unescaped brace positions — no open
brace means no metadata; an open but no close runs from the last open to end
of line; opens outnumbering closes by d runs from the open following the
first d (the earliest unmatched opens stay part of the name) to the last
close; otherwise from the first open to the last close. -/
theorem c5_metadata_region_choice (input : List Char) :
    guess_metadata_range input =
      (if unescapedIdx input '\x7b' = [] then none
       else if unescapedIdx input '\x7d' = [] then
         some (((unescapedIdx input '\x7b').getLast?).getD 0, input.length)
       else if (unescapedIdx input '\x7d').length <
           (unescapedIdx input '\x7b').length then
         some ((((unescapedIdx input '\x7b').drop
             ((unescapedIdx input '\x7b').length -
               (unescapedIdx input '\x7d').length)).headD 0),
           ((unescapedIdx input '\x7d').getLast?).getD 0 + 1)
       else some ((unescapedIdx input '\x7b').headD 0,
         ((unescapedIdx input '\x7d').getLast?).getD 0 + 1)) := by
  have hgd : ∀ (l : List Nat) (n : Nat), l.getD n 0 = (l.drop n).headD 0 := by
    intro l n
    rw [List.getD_eq_getElem?_getD, List.headD_eq_head?_getD, List.head?_drop]
  simp only [guess_metadata_range, find_all_unescaped_eq, List.isEmpty_iff, hgd,
    List.headD_eq_head?_getD, List.head?_drop]

end Tweep
